import Mathlib

/-!
Verification development for the `alx-backend-user-data` repository.

The repository has two source modules:

* `0x00-personal_data/filtered_logger.py` — regex-based redaction of
  sensitive `field=value` pairs in log lines (`patterns`, `filter_datum`,
  `RedactingFormatter`).
* `0x00-personal_data/encrypt_password.py` — password hashing and
  verification wrappers over the `bcrypt` library (`hash_password`,
  `is_valid`).

The embedding below translates the Python source into Lean.

Redaction.  The source builds the pattern string
`(?P<field>f1|f2|...)=[^S]*` by joining the field names with `'|'` and
interpolating the separator `S` into a negated character class, then runs
`re.sub` with the replacement template `\g<field>=REDACTION`.  We model the
regex semantics for this family of patterns directly:

* the alternative list is obtained by joining the field names with `'|'`
  and re-splitting the result at `'|'` (this reproduces both the empty
  field list, where the join is the empty string and the pattern has a
  single empty alternative, and a field name containing a literal `'|'`,
  which silently becomes two alternatives);
* at each position the scanner tries the alternatives in order and takes
  the first one that is followed by a literal `'='` (this is exactly the
  backtracking behaviour of an alternation of literals followed by `=`);
* the greedy `[^S]*` then consumes the maximal run of non-separator
  characters, the whole match is replaced by `field=REDACTION`, and
  scanning resumes after the match, as `re.sub` does.

The model is faithful for field names and separators that are free of
regex metacharacters other than `'|'` (which is modelled by the split).

Hashing.  The wrappers call the external `bcrypt` library, whose behaviour
is modelled from the spec: a hash value is a self-describing byte
sequence embedding cost, salt and digest; `checkpw` parses the stored
hash, recomputes the digest with the embedded salt and cost and compares;
an unparseable hash makes `bcrypt` raise `ValueError` (modelled as
`Except.error`), which the source wrappers do not catch.
-/

/-! ## Redaction: embedding of `patterns` and `filter_datum` -/

/-- Join a list of field names with the character `'|'`, as the source's
`'|'.join(fields)` does when building the `extract` pattern. -/
def joinBar : List (List Char) → List Char
  | [] => []
  | [f] => f
  | f :: fs => f ++ '|' :: joinBar fs

/-- Split a character sequence at every `'|'`, as the regex engine parses
the joined pattern string into an alternation of literal alternatives.
Splitting the empty string yields one empty alternative, matching the
regex `(?P<field>)=[^S]*` that the source produces for an empty field
list. -/
def splitBar : List Char → List (List Char)
  | [] => [[]]
  | c :: rest =>
    if c = '|' then [] :: splitBar rest
    else
      match splitBar rest with
      | [] => [[c]]
      | g :: gs => (c :: g) :: gs

/-- The alternative list of the compiled `extract` pattern for a given
field list. -/
def extractAlts (fields : List String) : List (List Char) :=
  splitBar (joinBar (fields.map String.data))

/-- The alternative chosen by the regex engine at the current position:
the first alternative that occurs literally and is immediately followed
by `'='`. -/
def firstAlt (alts : List (List Char)) (s : List Char) : Option (List Char) :=
  alts.find? (fun f => (f ++ ['=']).isPrefixOf s)

/-- One left-to-right `re.sub` pass for the pattern
`(?P<field>alt1|alt2|...)=[^seps]*` with replacement
`\g<field>=red`: at each position, if some alternative followed by `'='`
matches, emit the alternative, `'='` and the redaction, skip the greedy
run of non-separator characters, and resume after the match; otherwise
copy one character.  The fuel argument bounds the recursion; every step
consumes at least one input character, so fuel equal to the input length
is always sufficient. -/
def scanRedact (alts : List (List Char)) (red : List Char) (seps : List Char) :
    Nat → List Char → List Char
  | 0, s => s
  | _ + 1, [] => []
  | fuel + 1, c :: cs =>
    match firstAlt alts (c :: cs) with
    | none => c :: scanRedact alts red seps fuel cs
    | some f =>
      f ++ '=' :: (red ++ scanRedact alts red seps fuel
        (((c :: cs).drop (f.length + 1)).dropWhile (fun d => ! seps.contains d)))

/-- Embedding of the source's `filter_datum`: substitute every match of
the `extract` pattern by the `replace` template over the message. -/
def filter_datum (fields : List String) (redaction : String) (message : String)
    (separator : String) : String :=
  String.mk (scanRedact (extractAlts fields) redaction.data separator.data
    message.data.length message.data)

/-- Redaction treating every field name as a literal string (no regex
interpretation at all); used to compare the source behaviour against the
spec's reading of a field name as a literal, for the metacharacter
claim. -/
def filter_datum_literal (fields : List String) (redaction : String) (message : String)
    (separator : String) : String :=
  String.mk (scanRedact (fields.map String.data) redaction.data separator.data
    message.data.length message.data)

/-- A `key=value` log line in the wire format the repository emits:
each pair rendered as `key=value` followed by the separator. -/
def renderPairs (sep : Char) (pairs : List (String × String)) : String :=
  pairs.foldr (fun kv acc => kv.1 ++ "=" ++ kv.2 ++ String.mk [sep] ++ acc) ""

-- sanity checks of the model against the spec's concrete test vectors
example : filter_datum ["password"] "***" "password=secret123;" ";" = "password=***;" := by
  decide
example :
    filter_datum ["name", "email"] "xxx" "name=Bob;email=b@x.com;age=5;" ";"
      = "name=xxx;email=xxx;age=5;" := by decide
example : filter_datum ["id"] "*" "id=1;id=2;" ";" = "id=*;id=*;" := by decide
example : filter_datum ["ssn"] "***" "no matching fields here" ";"
    = "no matching fields here" := by decide
example : filter_datum [] "***" "name=Bob;" ";" = "name=***;" := by decide
example : filter_datum ["name"] "***" "username=Bob;" ";" = "username=***;" := by decide
example : filter_datum ["a|b"] "***" "a=1;" ";" = "a=***;" := by decide
example : filter_datum_literal ["a|b"] "***" "a=1;" ";" = "a=1;" := by decide
example : renderPairs ';' [("id", "1"), ("id", "2")] = "id=1;id=2;" := by decide

/-! ## Password hashing: embedding of `hash_password` and `is_valid` -/

/-- Error raised by the modelled `bcrypt` library when a stored hash does
not parse as a bcrypt hash value (Python's `ValueError: Invalid salt`). -/
inductive BcryptError where
  | invalidSalt
deriving DecidableEq, Repr

/-- A parsed bcrypt hash value: cost factor, salt and digest, which the
encoded form stores together. -/
structure BcryptHash where
  cost : Nat
  salt : Nat
  digest : Nat
deriving DecidableEq, Repr

/-- Modelled from the spec: bcrypt's key-derivation digest, "a
deliberately slow, salt-embedding one-way function".  The spec treats the
digest as opaque, so it is modelled as an explicit deterministic function
of password, cost and salt; no theorem below depends on its numeric
values beyond determinism. -/
def bcryptDigest (password : String) (cost salt : Nat) : Nat :=
  password.data.foldl (fun a c => (a * 31 + c.toNat) % 4294967296)
    ((salt * 2901 + cost) % 4294967296)

/-- Base-10 digits of a natural number, least significant first; the fuel
argument bounds the recursion and any fuel of at least `n` is exact. -/
def natDigits : Nat → Nat → List Nat
  | 0, _ => []
  | _ + 1, 0 => []
  | fuel + 1, n + 1 => ((n + 1) % 10) :: natDigits fuel ((n + 1) / 10)

/-- Recombine a least-significant-first base-10 digit list. -/
def ofDigitsLE : List Nat → Nat
  | [] => 0
  | d :: ds => d + 10 * ofDigitsLE ds

/-- Decimal digit bytes of a natural number (most significant first). -/
def encodeNat (n : Nat) : List Nat :=
  ((natDigits n n).map (fun d => d + 48)).reverse

/-- Read a decimal number back from its digit bytes. -/
def decodeNat (ds : List Nat) : Nat :=
  ofDigitsLE (ds.reverse.map (fun d => d - 48))

/-- Modelled from the spec: the self-describing encoded bcrypt hash, "an
opaque, self-contained encoded string/byte sequence (algorithm identifier
+ cost + salt + digest)".  Encoded as the `$2b$` marker followed by the
three numbers in decimal, separated by `'$'` (byte 36). -/
def encodeHash (h : BcryptHash) : List Nat :=
  36 :: 50 :: 98 :: 36 :: (encodeNat h.cost ++ 36 :: (encodeNat h.salt ++ 36 :: encodeNat h.digest))

/-- Longest prefix of decimal digit bytes, with the remainder. -/
def takeDigits : List Nat → List Nat × List Nat
  | [] => ([], [])
  | b :: bs =>
    if 48 ≤ b ∧ b ≤ 57 then
      match takeDigits bs with
      | (d, r) => (b :: d, r)
    else ([], b :: bs)

/-- Modelled from the spec: parsing a stored byte sequence as a bcrypt
hash value; a byte sequence that does not follow the self-describing
format is malformed and makes `bcrypt` raise. -/
def parseHash (bytes : List Nat) : Option BcryptHash :=
  match bytes with
  | 36 :: 50 :: 98 :: 36 :: rest =>
    match takeDigits rest with
    | (c, 36 :: r2) =>
      match takeDigits r2 with
      | (s, 36 :: r4) =>
        match takeDigits r4 with
        | (d, []) => some ⟨decodeNat c, decodeNat s, decodeNat d⟩
        | _ => none
      | _ => none
    | _ => none
  | _ => none

/-- Modelled from the spec: `bcrypt.checkpw` parses the stored hash,
recomputes the digest from the candidate password with the embedded salt
and cost, and compares; an unparseable hash raises `ValueError`
(modelled as `Except.error`) rather than returning `False`. -/
def checkpw (password : String) (hashed : List Nat) : Except BcryptError Bool :=
  match parseHash hashed with
  | none => Except.error BcryptError.invalidSalt
  | some h => Except.ok (decide (bcryptDigest password h.cost h.salt = h.digest))

/-- Modelled from the spec: `bcrypt.hashpw(password, bcrypt.gensalt())`
with the default cost factor 12; the fresh random salt drawn by
`gensalt()` is modelled as an explicit argument. -/
def hashpw (password : String) (salt : Nat) : List Nat :=
  encodeHash ⟨12, salt, bcryptDigest password 12 salt⟩

/-- Embedding of the source's `hash_password`: hash the password with a
freshly generated salt (passed explicitly). -/
def hash_password (password : String) (salt : Nat) : List Nat :=
  hashpw password salt

/-- Embedding of the source's `is_valid`: the bare `bcrypt.checkpw` call;
any exception from `bcrypt` propagates (there is no `try`/`except` in the
source). -/
def is_valid (hashed_password : List Nat) (password : String) : Except BcryptError Bool :=
  checkpw password hashed_password

/-! ## Logging: embedding of `RedactingFormatter` -/

/-- The fields of a `logging.LogRecord` that the formatter's template
substitutes: logger name, severity name, formatted timestamp, rendered
message body. -/
structure LogRecord where
  name : String
  levelname : String
  asctime : String
  message : String

/-- The redaction token `RedactingFormatter.REDACTION` from the source. -/
def REDACTION : String := "***"

/-- The separator `RedactingFormatter.SEPARATOR` from the source. -/
def SEPARATOR : String := ";"

/-- Left-justify a string to width 15 with spaces, as the `%-15s`
conversion in the template does. -/
def padRight15 (s : String) : String :=
  s ++ String.mk (List.replicate (15 - s.length) ' ')

/-- Modelled from the spec: `logging.Formatter.format` renders the record
through the template `[HOLBERTON] %(name)s %(levelname)s %(asctime)-15s:
%(message)s`, substituting logger name, severity, timestamp and message
body. -/
def superFormat (record : LogRecord) : String :=
  "[HOLBERTON] " ++ record.name ++ " " ++ record.levelname ++ " "
    ++ padRight15 record.asctime ++ ": " ++ record.message

/-- Embedding of the source's `RedactingFormatter.format`: render the
record through the parent formatter, then redact the rendered string with
the configured fields, redaction token and separator. -/
def RedactingFormatter.format (fields : List String) (record : LogRecord) : String :=
  filter_datum fields REDACTION (superFormat record) SEPARATOR

example : is_valid (hash_password "pw" 7) "pw" = Except.ok true := rfl
example : is_valid (hash_password "pw" 7) "other" = Except.ok false := rfl
example : is_valid [] "pw" = Except.error BcryptError.invalidSalt := rfl
example : hash_password "pw" 0 ≠ hash_password "pw" 1 := by decide

/-! ## List helper lemmas -/

/-- Boolean prefix test agrees with the prefix relation. -/
lemma isPrefixOf_iff {l₁ l₂ : List Char} : l₁.isPrefixOf l₂ = true ↔ l₁ <+: l₂ := by
  induction l₁ generalizing l₂ with
  | nil => simp [List.isPrefixOf]
  | cons a l ih =>
    cases l₂ with
    | nil => simp [List.isPrefixOf]
    | cons b l₂ =>
      simp [List.isPrefixOf, List.cons_prefix_cons, ih, beq_iff_eq]

/-- Dropping a while-run never lengthens a list. -/
lemma length_dropWhile_le_self {p : Char → Bool} (l : List Char) :
    (List.dropWhile p l).length ≤ l.length := by
  induction l with
  | nil => simp [List.dropWhile]
  | cons a l ih =>
    by_cases h : p a
    · simpa [List.dropWhile, h] using Nat.le_succ_of_le ih
    · simp [List.dropWhile, h]

/-- `find?` only depends on the values of the predicate on the list. -/
lemma find?_congr {p q : List Char → Bool} :
    ∀ l : List (List Char), (∀ a ∈ l, p a = q a) → List.find? p l = List.find? q l := by
  intro l
  induction l with
  | nil => intro _; rfl
  | cons a l ih =>
    intro h
    have ha := h a (by simp)
    by_cases hp : p a
    · simp [List.find?, hp, ← ha, hp ▸ ha.symm]
    · have hq : q a = false := by rw [← ha]; exact Bool.of_not_eq_true hp
      simp [List.find?, Bool.of_not_eq_true hp, hq]
      exact ih (fun b hb => h b (by simp [hb]))

/-- Searching a list for an element equal to `a` finds `a` itself whenever
`a` is a member. -/
lemma find?_beq_self {a : List Char} :
    ∀ {l : List (List Char)}, a ∈ l → List.find? (fun b => b == a) l = some a := by
  intro l
  induction l with
  | nil => intro h; cases h
  | cons b l ih =>
    intro h
    by_cases hb : b = a
    · subst hb; simp [List.find?]
    · have : a ∈ l := by
        cases h with
        | head => exact absurd rfl hb
        | tail _ h => exact h
      simpa [List.find?, beq_eq_false_iff_ne.mpr hb] using ih this

/-- If the marker character `ch` occurs neither in `x` nor in `a`, then a
prefix of the form `a ++ [ch]` of `x ++ ch :: y` forces `a = x`. -/
lemma append_marker_eq {ch : Char} :
    ∀ {a x : List Char} {y : List Char}, ch ∉ x → ch ∉ a →
      ((a ++ [ch]) <+: (x ++ ch :: y) ↔ a = x) := by
  intro a
  induction a with
  | nil =>
    intro x y hx _
    cases x with
    | nil => simp
    | cons c x =>
      simp only [List.nil_append, List.cons_append]
      constructor
      · intro h
        rcases List.cons_prefix_cons.mp h with ⟨h1, _⟩
        exact (hx (by simp [h1])).elim
      · intro h; cases h
  | cons b a ih =>
    intro x y hx hb
    cases x with
    | nil =>
      simp only [List.cons_append, List.nil_append]
      constructor
      · intro h
        rcases List.cons_prefix_cons.mp h with ⟨h1, _⟩
        exact (hb (by simp [h1])).elim
      · intro h; cases h
    | cons c x =>
      simp only [List.cons_append]
      constructor
      · intro h
        rcases List.cons_prefix_cons.mp h with ⟨h1, h2⟩
        have hax : a = x :=
          (ih (fun hm => hx (by simp [hm])) (fun hm => hb (by simp [hm]))).mp h2
        simp [h1, hax]
      · intro h
        rw [List.cons.injEq] at h
        rcases h with ⟨h1, h2⟩
        subst h1; subst h2
        exact ⟨y, by simp⟩

/-- If `ch` does not occur in `z`, `c` does not occur in `a`, and the two
are distinct, then `a ++ [ch]` is not a prefix of `z ++ c :: y`. -/
lemma append_marker_absent {ch c : Char} :
    ∀ {a z : List Char} {y : List Char}, ch ∉ z → c ∉ a → ch ≠ c →
      ¬ ((a ++ [ch]) <+: (z ++ c :: y)) := by
  intro a
  induction a with
  | nil =>
    intro z y hz hc hne h
    cases z with
    | nil =>
      simp only [List.nil_append] at h
      rcases List.cons_prefix_cons.mp h with ⟨h1, _⟩
      exact hne h1
    | cons d z =>
      simp only [List.nil_append, List.cons_append] at h
      rcases List.cons_prefix_cons.mp h with ⟨h1, _⟩
      exact hz (by simp [← h1])
  | cons b a ih =>
    intro z y hz hc hne h
    cases z with
    | nil =>
      simp only [List.cons_append, List.nil_append] at h
      rcases List.cons_prefix_cons.mp h with ⟨h1, _⟩
      exact hc (by simp [h1])
    | cons d z =>
      simp only [List.cons_append] at h
      rcases List.cons_prefix_cons.mp h with ⟨_, h2⟩
      exact ih (fun hm => hz (by simp [hm])) (fun hm => hc (by simp [hm])) hne h2

/-- Dropping a while-run walks through a block of characters on which the
predicate holds everywhere. -/
lemma dropWhile_all {p : Char → Bool} :
    ∀ {v w : List Char}, (∀ c ∈ v, p c = true) →
      List.dropWhile p (v ++ w) = List.dropWhile p w := by
  intro v
  induction v with
  | nil => intro w _; rfl
  | cons a v ih =>
    intro w h
    have ha : p a = true := h a (by simp)
    simpa [List.dropWhile, ha] using ih (fun c hc => h c (by simp [hc]))

/-- Every suffix of `a ++ b` is a suffix of `b` or extends `b` by a
non-empty suffix of `a`. -/
lemma suffix_split {u a b : List Char} (h : u <:+ a ++ b) :
    u <:+ b ∨ ∃ a', a' <:+ a ∧ a' ≠ [] ∧ u = a' ++ b := by
  induction a with
  | nil => exact Or.inl (by simpa using h)
  | cons x a ih =>
    rcases List.suffix_cons_iff.mp (by simpa using h) with h1 | h2
    · exact Or.inr ⟨x :: a, List.suffix_refl _, by simp, by simpa using h1⟩
    · rcases ih h2 with h3 | ⟨a', ha', hne, hu⟩
      · exact Or.inl h3
      · exact Or.inr ⟨a', ha'.trans (List.suffix_cons x a), hne, hu⟩

/-! ## Scanner lemmas -/

/-- No alternative matches at the end of the input. -/
lemma firstAlt_nil {alts : List (List Char)} : firstAlt alts [] = none := by
  unfold firstAlt
  rw [List.find?_eq_none]
  intro f _
  cases f <;> simp [List.isPrefixOf]

/-- The scan result does not depend on the fuel, as long as the fuel is at
least the input length. -/
lemma scanRedact_fuel {alts : List (List Char)} {red seps : List Char} :
    ∀ (fuel₁ : Nat) (s : List Char) (fuel₂ : Nat), s.length ≤ fuel₁ → s.length ≤ fuel₂ →
      scanRedact alts red seps fuel₁ s = scanRedact alts red seps fuel₂ s := by
  intro fuel₁
  induction fuel₁ with
  | zero =>
    intro s fuel₂ h1 _
    have : s = [] := List.length_eq_zero.mp (Nat.le_zero.mp h1)
    subst this
    cases fuel₂ <;> rfl
  | succ fuel ih =>
    intro s fuel₂ h1 h2
    cases s with
    | nil => cases fuel₂ <;> rfl
    | cons c cs =>
      cases fuel₂ with
      | zero => exact absurd h2 (by simp)
      | succ fuel₂ =>
        cases hm : firstAlt alts (c :: cs) with
        | none =>
          have hcs : cs.length ≤ fuel := by simp at h1; omega
          have hcs₂ : cs.length ≤ fuel₂ := by simp at h2; omega
          simp only [scanRedact, hm]
          rw [ih cs fuel₂ hcs hcs₂]
        | some f =>
          simp only [scanRedact, hm]
          have hlen : (((c :: cs).drop (f.length + 1)).dropWhile
              (fun d => ! seps.contains d)).length ≤ cs.length := by
            calc (((c :: cs).drop (f.length + 1)).dropWhile
                (fun d => ! seps.contains d)).length
                ≤ ((c :: cs).drop (f.length + 1)).length :=
                  length_dropWhile_le_self _
              _ ≤ ((c :: cs).drop 1).length := by
                  rw [List.length_drop, List.length_drop]
                  omega
              _ = cs.length := by simp
          have hf₁ : cs.length ≤ fuel := by simp at h1; omega
          have hf₂ : cs.length ≤ fuel₂ := by simp at h2; omega
          rw [ih _ fuel₂ (le_trans hlen hf₁) (le_trans hlen hf₂)]

/-- The scan with its canonical fuel (the input length). -/
def scanR (alts : List (List Char)) (red seps : List Char) (s : List Char) : List Char :=
  scanRedact alts red seps s.length s

/-- Any sufficient fuel computes the canonical scan. -/
lemma scanR_eq {alts : List (List Char)} {red seps : List Char} {s : List Char}
    {fuel : Nat} (h : s.length ≤ fuel) :
    scanRedact alts red seps fuel s = scanR alts red seps s :=
  scanRedact_fuel fuel s s.length h (le_refl _)

lemma scanR_nil {alts : List (List Char)} {red seps : List Char} :
    scanR alts red seps [] = [] := rfl

/-- Copy step: when no alternative matches at the head, the scan copies
one character. -/
lemma scanR_copy {alts : List (List Char)} {red seps : List Char} {c : Char}
    {cs : List Char} (h : firstAlt alts (c :: cs) = none) :
    scanR alts red seps (c :: cs) = c :: scanR alts red seps cs := by
  unfold scanR
  simp only [List.length_cons, scanRedact, h]

/-- Match step: when an alternative matches at the head, the scan emits
the alternative, `'='` and the redaction, and resumes after the greedy
value run. -/
lemma scanR_match {alts : List (List Char)} {red seps : List Char} {s : List Char}
    {f : List Char} (h : firstAlt alts s = some f) :
    scanR alts red seps s
      = f ++ '=' :: (red ++ scanR alts red seps
          ((s.drop (f.length + 1)).dropWhile (fun d => ! seps.contains d))) := by
  cases s with
  | nil => rw [firstAlt_nil] at h; cases h
  | cons c cs =>
    have hlen : (((c :: cs).drop (f.length + 1)).dropWhile
        (fun d => ! seps.contains d)).length ≤ cs.length := by
      calc (((c :: cs).drop (f.length + 1)).dropWhile (fun d => ! seps.contains d)).length
          ≤ ((c :: cs).drop (f.length + 1)).length := length_dropWhile_le_self _
        _ ≤ ((c :: cs).drop 1).length := by
            rw [List.length_drop, List.length_drop]; omega
        _ = cs.length := by simp
    unfold scanR
    simp only [List.length_cons, scanRedact, h]
    rw [scanR_eq hlen]
    rfl

/-- At a position of the form `x ++ '=' :: y` where neither `x` nor any
alternative contains `'='`, the regex engine's choice is exactly the first
alternative equal to `x`; in particular it does not depend on `y`. -/
lemma firstAlt_marker {alts : List (List Char)} {x y : List Char}
    (hx : '=' ∉ x) (halts : ∀ a ∈ alts, '=' ∉ a) :
    firstAlt alts (x ++ '=' :: y) = alts.find? (fun a => a == x) := by
  unfold firstAlt
  apply find?_congr
  intro a ha
  by_cases h : (a ++ ['=']) <+: (x ++ '=' :: y)
  · have hax : a = x := (append_marker_eq hx (halts a ha)).mp h
    subst hax
    simp [isPrefixOf_iff.mpr h]
  · have hax : a ≠ x := fun he => h ((append_marker_eq hx (halts a ha)).mpr he)
    have h1 : (a ++ ['=']).isPrefixOf (x ++ '=' :: y) = false :=
      Bool.eq_false_iff.mpr (fun hb => h (isPrefixOf_iff.mp hb))
    rw [h1, beq_eq_false_iff_ne.mpr hax]

/-- No alternative matches inside a run of non-`'='` characters that ends
at a separator: the `'='` required after the field name cannot be found
before the separator, and no alternative may contain the separator. -/
lemma firstAlt_none_val {alts : List (List Char)} {sep : Char} {z M : List Char}
    (halts : ∀ a ∈ alts, '=' ∉ a ∧ sep ∉ a) (hz : '=' ∉ z) (hsep : sep ≠ '=') :
    firstAlt alts (z ++ sep :: M) = none := by
  unfold firstAlt
  rw [List.find?_eq_none]
  intro a ha hpre
  exact append_marker_absent hz (halts a ha).2 (fun h => hsep h.symm)
    (isPrefixOf_iff.mp hpre)

/-- Copying a whole segment: if no alternative matches at any position
inside `u` (looking ahead into `rest`), the scan copies `u` verbatim. -/
lemma scanR_copy_seg {alts : List (List Char)} {red seps : List Char} :
    ∀ (u rest : List Char),
      (∀ u', u' ≠ [] → u' <:+ u → firstAlt alts (u' ++ rest) = none) →
      scanR alts red seps (u ++ rest) = u ++ scanR alts red seps rest := by
  intro u
  induction u with
  | nil => intro rest _; rfl
  | cons c u ih =>
    intro rest h
    have hnone : firstAlt alts (c :: (u ++ rest)) = none := by
      have := h (c :: u) (by simp) (List.suffix_refl _)
      simpa using this
    rw [List.cons_append, scanR_copy hnone,
      ih rest (fun u' hne hsuf => h u' hne (hsuf.trans (List.suffix_cons c u)))]
    rfl

/-- The alternative list compiles to exactly the field names whenever the
field list is non-empty and no field name contains `'|'`. -/
lemma splitBar_no_bar {f : List Char} (hf : '|' ∉ f) : splitBar f = [f] := by
  induction f with
  | nil => rfl
  | cons c f ih =>
    have hc : c ≠ '|' := fun h => hf (by simp [h])
    have hf' : '|' ∉ f := fun h => hf (by simp [h])
    simp only [splitBar, if_neg hc, ih hf']

lemma splitBar_append_bar {f : List Char} (hf : '|' ∉ f) :
    ∀ rest, splitBar (f ++ '|' :: rest) = f :: splitBar rest := by
  induction f with
  | nil => intro rest; simp [splitBar]
  | cons c f ih =>
    intro rest
    have hc : c ≠ '|' := fun h => hf (by simp [h])
    have hf' : '|' ∉ f := fun h => hf (by simp [h])
    simp only [List.cons_append, splitBar, if_neg hc, List.append_eq, ih hf']

lemma extractAlts_eq {fields : List String} (hne : fields ≠ [])
    (hbar : ∀ f ∈ fields, '|' ∉ f.data) :
    extractAlts fields = fields.map String.data := by
  unfold extractAlts
  induction fields with
  | nil => exact absurd rfl hne
  | cons f fs ih =>
    cases fs with
    | nil =>
      simp only [List.map]
      exact splitBar_no_bar (hbar f (by simp))
    | cons g gs =>
      have hj : joinBar ((f :: g :: gs).map String.data)
          = f.data ++ '|' :: joinBar ((g :: gs).map String.data) := rfl
      rw [hj, splitBar_append_bar (hbar f (by simp)),
        ih (by simp) (fun a ha => hbar a (by simp [ha]))]
      rfl

/-- Character-level rendering of a `key=value` pair list. -/
def renderPairsC (sep : Char) : List (List Char × List Char) → List Char
  | [] => []
  | kv :: ps => kv.1 ++ '=' :: (kv.2 ++ sep :: renderPairsC sep ps)

lemma renderPairs_data {sep : Char} :
    ∀ ps : List (String × String),
      (renderPairs sep ps).data = renderPairsC sep (ps.map fun kv => (kv.1.data, kv.2.data)) := by
  intro ps
  induction ps with
  | nil => rfl
  | cons kv ps ih =>
    show (kv.1 ++ "=" ++ kv.2 ++ String.mk [sep] ++ renderPairs sep ps).data = _
    rw [String.data_append, String.data_append, String.data_append, String.data_append, ih]
    simp [renderPairsC]

/-- Pointwise redaction of a well-formed `key=value` line.  If no key or
value contains the separator or `'='`, and no proper suffix of a key is
itself an alternative (the anchoring caveat), then one scan pass replaces
exactly the values of the listed keys by the redaction and leaves all
other keys and values untouched. -/
lemma scanR_pairs {alts : List (List Char)} {red : List Char} {sep : Char}
    (halts : ∀ a ∈ alts, '=' ∉ a ∧ sep ∉ a) (hsep : sep ≠ '=') :
    ∀ ps : List (List Char × List Char),
      (∀ kv ∈ ps, sep ∉ kv.1 ∧ '=' ∉ kv.1 ∧ sep ∉ kv.2 ∧ '=' ∉ kv.2 ∧
        ∀ t, t <:+ kv.1 → t ∈ alts → t = kv.1) →
      scanR alts red [sep] (renderPairsC sep ps)
        = renderPairsC sep (ps.map fun kv => (kv.1, if kv.1 ∈ alts then red else kv.2)) := by
  intro ps
  induction ps with
  | nil => intro _; rfl
  | cons kv ps ih =>
    intro hps
    obtain ⟨k, v⟩ := kv
    obtain ⟨hk1, hk2, hv1, hv2, hk5⟩ := hps (k, v) (by simp)
    have ihps := ih (fun kv h => hps kv (by simp [h]))
    have hmsg : renderPairsC sep ((k, v) :: ps)
        = k ++ '=' :: (v ++ sep :: renderPairsC sep ps) := rfl
    have hsepstep : firstAlt alts (sep :: renderPairsC sep ps) = none := by
      have := firstAlt_none_val (z := []) (M := renderPairsC sep ps) halts (by simp) hsep
      simpa using this
    by_cases hk : k ∈ alts
    · have hfa : firstAlt alts (k ++ '=' :: (v ++ sep :: renderPairsC sep ps)) = some k := by
        rw [firstAlt_marker hk2 (fun a ha => (halts a ha).1)]
        exact find?_beq_self hk
      rw [hmsg, scanR_match hfa]
      have hdrop : (k ++ '=' :: (v ++ sep :: renderPairsC sep ps)).drop (k.length + 1)
          = v ++ sep :: renderPairsC sep ps := by
        have h1 : k ++ '=' :: (v ++ sep :: renderPairsC sep ps)
            = (k ++ ['=']) ++ (v ++ sep :: renderPairsC sep ps) := by simp
        have h2 : (k ++ ['=']).length = k.length + 1 := by simp
        rw [h1, ← h2, List.drop_left]
      rw [hdrop]
      have hdw : (v ++ sep :: renderPairsC sep ps).dropWhile
          (fun d => ! [sep].contains d) = sep :: renderPairsC sep ps := by
        rw [dropWhile_all (fun c hc => by
          simp only [List.contains_cons, List.contains_nil, Bool.or_false]
          exact bne_iff_ne.mpr (fun he => hv1 (he ▸ hc)))]
        simp [List.dropWhile]
      rw [hdw, scanR_copy hsepstep, ihps]
      simp [renderPairsC, hk]
    · have hseg : ∀ u', u' ≠ [] → u' <:+ (k ++ '=' :: v) →
          firstAlt alts (u' ++ sep :: renderPairsC sep ps) = none := by
        intro u' hne hsuf
        have hnil : [] ∉ alts := by
          intro h0
          have he : [] = k := hk5 [] ⟨k, by simp⟩ h0
          rw [← he] at hk
          exact hk h0
        rcases suffix_split hsuf with h1 | ⟨k', hk', hkne, hu⟩
        · rcases List.suffix_cons_iff.mp h1 with h2 | h3
          · subst h2
            have hm := @firstAlt_marker alts [] (v ++ sep :: renderPairsC sep ps)
              (by simp) (fun a ha => (halts a ha).1)
            simp only [List.nil_append] at hm
            rw [List.cons_append, hm, List.find?_eq_none]
            intro a ha hb
            exact hnil ((beq_iff_eq.mp hb) ▸ ha)
          · have hzne : '=' ∉ u' := fun hmem => hv2 (h3.subset hmem)
            exact firstAlt_none_val halts hzne hsep
        · subst hu
          have hkne2 : '=' ∉ k' := fun hmem => hk2 (hk'.subset hmem)
          rw [List.append_assoc, List.cons_append]
          have := firstAlt_marker (x := k') (y := v ++ sep :: renderPairsC sep ps)
            hkne2 (fun a ha => (halts a ha).1)
          rw [this, List.find?_eq_none]
          intro a ha hb
          have hak : a = k' := beq_iff_eq.mp hb
          have : k' = k := hk5 k' hk' (hak ▸ ha)
          exact hk (this ▸ hak ▸ ha)
      have hmsg2 : renderPairsC sep ((k, v) :: ps)
          = (k ++ '=' :: v) ++ sep :: renderPairsC sep ps := by
        simp [renderPairsC]
      rw [hmsg2, scanR_copy_seg _ _ hseg, scanR_copy hsepstep, ihps]
      simp [renderPairsC, hk]

/-- The result of `dropWhile` is empty or starts with a character failing
the predicate. -/
lemma dropWhile_head {p : Char → Bool} :
    ∀ l : List Char, List.dropWhile p l = [] ∨
      ∃ c cs, List.dropWhile p l = c :: cs ∧ p c = false := by
  intro l
  induction l with
  | nil => exact Or.inl rfl
  | cons a l ih =>
    by_cases h : p a
    · simpa [List.dropWhile, h] using ih
    · exact Or.inr ⟨a, l, by simp [List.dropWhile, h], Bool.of_not_eq_true h⟩

/-- No alternative matches at a separator character. -/
lemma firstAlt_none_sep {alts : List (List Char)} {sep : Char}
    (halts : ∀ a ∈ alts, '=' ∉ a ∧ sep ∉ a) (hsep : sep ≠ '=') (M : List Char) :
    firstAlt alts (sep :: M) = none := by
  have := firstAlt_none_val (z := []) (M := M) halts (by simp) hsep
  simpa using this

/-- Dropping past an appended block ending at a marker character. -/
lemma drop_marker {f y : List Char} {ch : Char} :
    (f ++ ch :: y).drop (f.length + 1) = y := by
  have h1 : f ++ ch :: y = (f ++ [ch]) ++ y := by simp
  have h2 : (f ++ [ch]).length = f.length + 1 := by simp
  rw [h1, ← h2, List.drop_left]

/-- Reflection of matches: a field-name-plus-`'='` occurrence at the head
of the scan output comes from an occurrence at the head of the input. -/
lemma scanR_reflect {alts : List (List Char)} {red seps : List Char}
    (halts : ∀ a ∈ alts, '=' ∉ a) :
    ∀ (n : Nat) (s w : List Char), s.length ≤ n → '=' ∉ w →
      (w ++ ['=']) <+: scanR alts red seps s → (w ++ ['=']) <+: s := by
  intro n
  induction n with
  | zero =>
    intro s w hlen _ hpre
    have : s = [] := List.length_eq_zero.mp (Nat.le_zero.mp hlen)
    subst this
    rw [scanR_nil] at hpre
    exact hpre
  | succ n ih =>
    intro s w hlen hw hpre
    cases s with
    | nil => rw [scanR_nil] at hpre; exact hpre
    | cons c cs =>
      cases hm : firstAlt alts (c :: cs) with
      | none =>
        rw [scanR_copy hm] at hpre
        cases w with
        | nil =>
          simp only [List.nil_append] at hpre ⊢
          rcases List.cons_prefix_cons.mp hpre with ⟨h1, _⟩
          exact List.cons_prefix_cons.mpr ⟨h1, List.nil_prefix⟩
        | cons b w' =>
          simp only [List.cons_append] at hpre ⊢
          rcases List.cons_prefix_cons.mp hpre with ⟨h1, h2⟩
          have hcs : cs.length ≤ n := by simp at hlen; omega
          have hw' : '=' ∉ w' := fun hmem => hw (by simp [hmem])
          exact List.cons_prefix_cons.mpr ⟨h1, ih cs w' hcs hw' h2⟩
      | some f =>
        have hm' : List.find? (fun g => (g ++ ['=']).isPrefixOf (c :: cs)) alts = some f := hm
        have hf : f ∈ alts := List.mem_of_find?_eq_some hm'
        rw [scanR_match hm] at hpre
        have hwf : w = f := (append_marker_eq (halts f hf) hw).mp hpre
        rw [hwf]
        have hp : ((f ++ ['=']).isPrefixOf (c :: cs)) = true := by
          have h2 := List.find?_some hm'
          simpa using h2
        exact isPrefixOf_iff.mp hp

/-- One scan pass is idempotent when no alternative contains `'='` or the
separator and the redaction contains no separator: re-scanning the output
redacts every `field=red` block to itself and leaves the rest alone. -/
lemma scanR_idem {alts : List (List Char)} {red : List Char} {sep : Char}
    (halts : ∀ a ∈ alts, '=' ∉ a ∧ sep ∉ a)
    (hred : sep ∉ red) (hsep : sep ≠ '=') :
    ∀ (n : Nat) (s : List Char), s.length ≤ n →
      scanR alts red [sep] (scanR alts red [sep] s) = scanR alts red [sep] s := by
  intro n
  induction n with
  | zero =>
    intro s hlen
    have : s = [] := List.length_eq_zero.mp (Nat.le_zero.mp hlen)
    subst this; rfl
  | succ n ih =>
    intro s hlen
    cases s with
    | nil => rfl
    | cons c cs =>
      cases hm : firstAlt alts (c :: cs) with
      | none =>
        rw [scanR_copy hm]
        have hnone2 : firstAlt alts (c :: scanR alts red [sep] cs) = none := by
          cases hm2 : firstAlt alts (c :: scanR alts red [sep] cs) with
          | none => rfl
          | some a =>
            exfalso
            have hm2' : List.find? (fun g => (g ++ ['=']).isPrefixOf
                (c :: scanR alts red [sep] cs)) alts = some a := hm2
            have ha : a ∈ alts := List.mem_of_find?_eq_some hm2'
            have hp : (a ++ ['=']) <+: (c :: scanR alts red [sep] cs) := by
              have h2 := List.find?_some hm2'
              exact isPrefixOf_iff.mp (by simpa using h2)
            have hp2 : (a ++ ['=']) <+: scanR alts red [sep] (c :: cs) := by
              rw [scanR_copy hm]; exact hp
            have hp3 : (a ++ ['=']) <+: (c :: cs) :=
              scanR_reflect (fun b hb => (halts b hb).1) (cs.length + 1) _ a
                (by simp) (halts a ha).1 hp2
            exact (List.find?_eq_none.mp hm a ha) (isPrefixOf_iff.mpr hp3)
        rw [scanR_copy hnone2, ih cs (by simp at hlen; omega)]
      | some f =>
        have hm' : List.find? (fun g => (g ++ ['=']).isPrefixOf (c :: cs)) alts = some f := hm
        have hf : f ∈ alts := List.mem_of_find?_eq_some hm'
        rw [scanR_match hm]
        set rest' := (((c :: cs).drop (f.length + 1)).dropWhile
          (fun d => ! [sep].contains d)) with hrest
        have hlenr : rest'.length ≤ n := by
          have h1 : rest'.length ≤ ((c :: cs).drop (f.length + 1)).length := by
            rw [hrest]; exact length_dropWhile_le_self _
          have h2 : ((c :: cs).drop (f.length + 1)).length ≤ cs.length := by
            rw [List.length_drop]; simp
          simp at hlen; omega
        have hfa2 : firstAlt alts (f ++ '=' :: (red ++ scanR alts red [sep] rest'))
            = some f := by
          rw [firstAlt_marker (halts f hf).1 (fun a ha => (halts a ha).1)]
          exact find?_beq_self hf
        rw [scanR_match hfa2, drop_marker]
        have hredall : ∀ d ∈ red, (fun d => ! [sep].contains d) d = true := by
          intro d hd
          simp only [List.contains_cons, List.contains_nil, Bool.or_false]
          exact bne_iff_ne.mpr (fun he => hred (he ▸ hd))
        rw [dropWhile_all hredall]
        have hsplit : (scanR alts red [sep] rest').dropWhile (fun d => ! [sep].contains d)
            = scanR alts red [sep] rest' := by
          rcases dropWhile_head (p := fun d => ! [sep].contains d)
              ((c :: cs).drop (f.length + 1)) with h0 | ⟨d, ds, hds, hpd⟩
          · rw [← hrest] at h0
            rw [h0, scanR_nil]
            rfl
          · rw [← hrest] at hds
            have hd : d = sep := by simpa using hpd
            subst hd
            rw [hds, scanR_copy (firstAlt_none_sep halts hsep _)]
            simp [List.dropWhile]
        rw [hsplit, ih rest' hlenr]

/-! ## Hash encoding lemmas -/

lemma natDigits_lt : ∀ (fuel n : Nat), ∀ d ∈ natDigits fuel n, d < 10 := by
  intro fuel
  induction fuel with
  | zero => intro n d hd; cases hd
  | succ fuel ih =>
    intro n d hd
    cases n with
    | zero => cases hd
    | succ n =>
      simp only [natDigits] at hd
      rcases List.mem_cons.mp hd with h | h
      · rw [h]; exact Nat.mod_lt _ (by omega)
      · exact ih _ d h

lemma ofDigitsLE_natDigits : ∀ (fuel n : Nat), n ≤ fuel →
    ofDigitsLE (natDigits fuel n) = n := by
  intro fuel
  induction fuel with
  | zero =>
    intro n h
    have : n = 0 := Nat.le_zero.mp h
    subst this; rfl
  | succ fuel ih =>
    intro n h
    cases n with
    | zero => rfl
    | succ n =>
      have hdiv : (n + 1) / 10 ≤ fuel := by
        have : (n + 1) / 10 < n + 1 := Nat.div_lt_self (by omega) (by omega)
        omega
      simp only [natDigits, ofDigitsLE, ih _ hdiv]
      omega

lemma encodeNat_digits {n : Nat} : ∀ b ∈ encodeNat n, 48 ≤ b ∧ b ≤ 57 := by
  intro b hb
  unfold encodeNat at hb
  rw [List.mem_reverse, List.mem_map] at hb
  obtain ⟨d, hd, hdb⟩ := hb
  have := natDigits_lt n n d hd
  omega

lemma decodeNat_encodeNat {n : Nat} : decodeNat (encodeNat n) = n := by
  unfold decodeNat encodeNat
  rw [List.reverse_reverse, List.map_map]
  have : ((fun d => d - 48) ∘ fun d => d + 48) = id := by
    funext d; simp
  rw [this, List.map_id]
  exact ofDigitsLE_natDigits n n (le_refl _)

lemma takeDigits_stop : ∀ (s : List Nat) (r : Nat) (rs : List Nat),
    (∀ b ∈ s, 48 ≤ b ∧ b ≤ 57) → ¬(48 ≤ r ∧ r ≤ 57) →
    takeDigits (s ++ r :: rs) = (s, r :: rs) := by
  intro s
  induction s with
  | nil => intro r rs _ hr; simp [takeDigits, hr]
  | cons b s ih =>
    intro r rs hs hr
    have hb := hs b (by simp)
    simp only [List.cons_append, takeDigits, if_pos hb, List.append_eq,
      ih r rs (fun x hx => hs x (by simp [hx])) hr]

lemma takeDigits_all_digits : ∀ (s : List Nat), (∀ b ∈ s, 48 ≤ b ∧ b ≤ 57) →
    takeDigits s = (s, []) := by
  intro s
  induction s with
  | nil => intro _; rfl
  | cons b s ih =>
    intro hs
    have hb := hs b (by simp)
    simp only [takeDigits, if_pos hb, ih (fun x hx => hs x (by simp [hx]))]

/-- Round trip of the modelled hash encoding: every encoded hash parses
back to itself (so an encoded hash is never malformed, and the encoding
is injective). -/
lemma parseHash_encodeHash (h : BcryptHash) : parseHash (encodeHash h) = some h := by
  obtain ⟨c, s, d⟩ := h
  have h36 : ¬(48 ≤ 36 ∧ (36 : Nat) ≤ 57) := by omega
  show parseHash (36 :: 50 :: 98 :: 36 ::
    (encodeNat c ++ 36 :: (encodeNat s ++ 36 :: encodeNat d))) = _
  simp only [parseHash, takeDigits_stop _ 36 _ encodeNat_digits h36,
    takeDigits_all_digits _ encodeNat_digits, decodeNat_encodeNat]

lemma encodeHash_inj {h₁ h₂ : BcryptHash} (he : encodeHash h₁ = encodeHash h₂) :
    h₁ = h₂ := by
  have := parseHash_encodeHash h₁
  rw [he, parseHash_encodeHash h₂] at this
  exact (Option.some_inj.mp this).symm

/-- No alternative can match at a position whose first character differs
from the head of every `alternative ++ "="`. -/
lemma firstAlt_cons_head {alts : List (List Char)} {c : Char} {X : List Char}
    (h : ∀ a ∈ alts, (a ++ ['=']).head? ≠ some c) :
    firstAlt alts (c :: X) = none := by
  unfold firstAlt
  rw [List.find?_eq_none]
  intro a ha hp
  have hpre := isPrefixOf_iff.mp hp
  cases hh : (a ++ ['=']) with
  | nil => simp at hh
  | cons b t =>
    rw [hh] at hpre
    rcases List.cons_prefix_cons.mp hpre with ⟨h1, _⟩
    exact h a ha (by rw [hh, List.head?_cons, h1])

/-- Data projection reflects membership of field names. -/
lemma mem_map_data {f : String} {fields : List String} :
    f.data ∈ fields.map String.data ↔ f ∈ fields := by
  rw [List.mem_map]
  constructor
  · rintro ⟨g, hg, he⟩
    exact (String.ext he) ▸ hg
  · intro h
    exact ⟨f, h, rfl⟩

/-- A freshly produced hash always verifies against the password it
hashes: parsing inverts encoding and the digest is recomputed from the
same salt and cost. -/
lemma is_valid_hash_password (p : String) (salt : Nat) :
    is_valid (hash_password p salt) p = Except.ok true := by
  show checkpw p (encodeHash ⟨12, salt, bcryptDigest p 12 salt⟩) = _
  unfold checkpw
  rw [parseHash_encodeHash]
  simp

/-! ## Claims -/

/-- C1 counterexample: at the concrete malformed hash input `[]` (the
empty byte sequence) with password `"x"`, `is_valid` does not return a
boolean at all: the bcrypt `ValueError` propagates, so the claim that
`is_valid` never raises and treats a malformed hash as a non-match is
false on the code. -/
theorem C1_counterexample :
    is_valid [] "x" = Except.error BcryptError.invalidSalt := rfl

/-- C1 (amended): `is_valid` returns a boolean exactly on well-formed
(parseable) hash inputs; on malformed or unrecognized hash input the
bcrypt exception propagates to the caller instead of yielding `false`,
because the source wraps `bcrypt.checkpw` in no `try`/`except`. -/
theorem C1_amended_theorem (h : List Nat) (p : String) :
    (∃ b : Bool, is_valid h p = Except.ok b) ↔ (parseHash h).isSome = true := by
  unfold is_valid checkpw
  cases hp : parseHash h with
  | none =>
    simp only [Option.isSome_none]
    constructor
    · rintro ⟨b, hb⟩; cases hb
    · intro hb; cases hb
  | some hh =>
    simp only [Option.isSome_some]
    exact ⟨fun _ => trivial, fun _ => ⟨_, rfl⟩⟩

/-- C2: evaluating `filter_datum` at the failing input shows the empty
field list is not a no-op: the empty alternation `(?P<field>)=[^;]*`
matches every `=value` occurrence, so the value is redacted anyway. -/
theorem C2_eval : filter_datum [] "***" "name=Bob;" ";" = "name=***;" := by decide

/-- C3 counterexample: with field list `["name"]` the message
`"username=Bob;"`, whose only occurrence of `name` is embedded in the
longer key `username`, is redacted anyway — the pattern is not anchored,
so the claim that such a value is left unredacted is false on the code. -/
theorem C3_counterexample :
    filter_datum ["name"] "***" "username=Bob;" ";" = "username=***;" ∧
    filter_datum ["name"] "***" "username=Bob;" ";" ≠ "username=Bob;" := by
  constructor
  · decide
  · decide

/-- C5: round trip of hashing and verification — for every password and
every salt drawn by `gensalt`, `is_valid (hash_password P) P` is `true`. -/
theorem C5_theorem (p : String) (salt : Nat) :
    is_valid (hash_password p salt) p = Except.ok true :=
  is_valid_hash_password p salt

/-- C6: `RedactingFormatter.format` first renders the record through the
message template and then applies `filter_datum` to the fully rendered
string with the configured field list, redaction token `"***"` and
separator `";"`. -/
theorem C6_theorem (fields : List String) (record : LogRecord) :
    RedactingFormatter.format fields record
      = filter_datum fields "***" (superFormat record) ";" := rfl

/-- C8: two calls to `hash_password` on the same password with distinct
salts (the fresh random salt drawn per call) produce different encoded
outputs, yet both outputs verify against the password. -/
theorem C8_theorem (p : String) (s₁ s₂ : Nat) (hne : s₁ ≠ s₂) :
    hash_password p s₁ ≠ hash_password p s₂ ∧
    is_valid (hash_password p s₁) p = Except.ok true ∧
    is_valid (hash_password p s₂) p = Except.ok true := by
  refine ⟨?_, is_valid_hash_password p s₁, is_valid_hash_password p s₂⟩
  intro he
  have h2 := encodeHash_inj he
  exact hne (congrArg BcryptHash.salt h2)

/-- C8 witness at a concrete password and distinct concrete salts. -/
theorem C8_witness :
    (0 : Nat) ≠ 1 ∧
    (hash_password "hunter2" 0 ≠ hash_password "hunter2" 1 ∧
     is_valid (hash_password "hunter2" 0) "hunter2" = Except.ok true ∧
     is_valid (hash_password "hunter2" 1) "hunter2" = Except.ok true) :=
  ⟨by decide, C8_theorem "hunter2" 0 1 (by decide)⟩

/-- C9: field names are interpolated into the pattern without escaping;
the field name `"a|b"`, which contains the regex metacharacter `'|'`,
behaves as the alternation `a|b` and redacts `"a=1;"`, which differs from
treating the field name as a literal string (which would match nothing).
The sharp edge is present in the code, not sanitized. -/
theorem C9_theorem :
    filter_datum ["a|b"] "***" "a=1;" ";" ≠ filter_datum_literal ["a|b"] "***" "a=1;" ";" ∧
    filter_datum ["a|b"] "***" "a=1;" ";" = "a=***;" ∧
    filter_datum_literal ["a|b"] "***" "a=1;" ";" = "a=1;" := by
  refine ⟨by decide, by decide, by decide⟩

/-- C3 (amended): a listed field name occurring as a proper suffix of a
longer key DOES falsely match: the pattern anchors only on the literal
field name immediately followed by `'='`, with no word-boundary anchor,
so `name=` matches inside `username=` and the longer key's value is
redacted, for every separator-free and `'='`-free value. -/
theorem C3_amended_theorem (v : String) (h2 : ';' ∉ v.data) :
    filter_datum ["name"] "***" ("username=" ++ v ++ ";") ";" = "username=***;" := by
  apply String.ext
  have hdata : ("username=" ++ v ++ ";").data
      = 'u' :: 's' :: 'e' :: 'r' :: (['n', 'a', 'm', 'e'] ++ '=' :: (v.data ++ [';'])) := by
    rw [String.data_append, String.data_append]
    show ['u', 's', 'e', 'r', 'n', 'a', 'm', 'e', '='] ++ v.data ++ [';'] = _
    simp
  show scanR (extractAlts ["name"]) "***".data [';'] ("username=" ++ v ++ ";").data
      = "username=***;".data
  have hex : extractAlts ["name"] = [['n', 'a', 'm', 'e']] := rfl
  rw [hex, hdata]
  rw [scanR_copy (firstAlt_cons_head (by decide)),
    scanR_copy (firstAlt_cons_head (by decide)),
    scanR_copy (firstAlt_cons_head (by decide)),
    scanR_copy (firstAlt_cons_head (by decide))]
  have hfa : firstAlt [['n', 'a', 'm', 'e']] (['n', 'a', 'm', 'e'] ++ '=' :: (v.data ++ [';']))
      = some ['n', 'a', 'm', 'e'] := by
    rw [firstAlt_marker (by decide) (by decide)]
    decide
  rw [scanR_match hfa, drop_marker]
  have hdw : (v.data ++ [';']).dropWhile (fun d => ! [';'].contains d) = [';'] := by
    rw [dropWhile_all (fun c hc => by
      simp only [List.contains_cons, List.contains_nil, Bool.or_false]
      exact bne_iff_ne.mpr (fun he => h2 (he ▸ hc)))]
    simp [List.dropWhile]
  rw [hdw, scanR_copy (firstAlt_cons_head (by decide)), scanR_nil]
  decide

/-- C3 amended witness: the concrete instance from the claim. -/
theorem C3_amended_witness :
    (';' ∉ "Bob".data) ∧
    filter_datum ["name"] "***" ("username=" ++ "Bob" ++ ";") ";" = "username=***;" :=
  ⟨by decide, C3_amended_theorem "Bob" (by decide)⟩

/-- C4: for every non-empty list of literal (metacharacter-free) field
names, every redaction token, every separator character other than `'='`,
and every message that is a well-formed `key=value` line, `filter_datum`
replaces exactly the value portion of each pair whose key is a listed
field with the redaction token, preserving the `fieldname=` prefix, and
leaves all other pairs untouched.  (The hypotheses are the wire-format
constraints on keys and values; the last condition excludes keys with a
listed field as a proper suffix, which the unanchored pattern would also
match — see C3.) -/
theorem C4_theorem (fields : List String) (red : String) (sep : Char)
    (pairs : List (String × String))
    (hne : fields ≠ [])
    (hfields : ∀ f ∈ fields, '=' ∉ f.data ∧ sep ∉ f.data ∧ '|' ∉ f.data)
    (hsep : sep ≠ '=')
    (hpairs : ∀ kv ∈ pairs, sep ∉ kv.1.data ∧ '=' ∉ kv.1.data ∧ sep ∉ kv.2.data ∧
      '=' ∉ kv.2.data ∧
      ∀ t ∈ kv.1.data.tails, t ∈ fields.map String.data → t = kv.1.data) :
    filter_datum fields red (renderPairs sep pairs) (String.mk [sep])
      = renderPairs sep (pairs.map fun kv => (kv.1, if kv.1 ∈ fields then red else kv.2)) := by
  have halts : ∀ a ∈ fields.map String.data, '=' ∉ a ∧ sep ∉ a := by
    intro a ha
    rw [List.mem_map] at ha
    obtain ⟨f, hf, rfl⟩ := ha
    exact ⟨(hfields f hf).1, (hfields f hf).2.1⟩
  have hcond : ∀ kv ∈ pairs.map (fun kv => (kv.1.data, kv.2.data)),
      sep ∉ kv.1 ∧ '=' ∉ kv.1 ∧ sep ∉ kv.2 ∧ '=' ∉ kv.2 ∧
      ∀ t, t <:+ kv.1 → t ∈ fields.map String.data → t = kv.1 := by
    intro kvc hkvc
    rw [List.mem_map] at hkvc
    obtain ⟨kv, hkv, rfl⟩ := hkvc
    obtain ⟨g1, g2, g3, g4, g5⟩ := hpairs kv hkv
    exact ⟨g1, g2, g3, g4,
      fun t hsuf hmem => g5 t ((List.mem_tails _ _).mpr hsuf) hmem⟩
  apply String.ext
  show scanR (extractAlts fields) red.data [sep] (renderPairs sep pairs).data
      = (renderPairs sep (pairs.map fun kv =>
          (kv.1, if kv.1 ∈ fields then red else kv.2))).data
  rw [extractAlts_eq hne (fun f hf => (hfields f hf).2.2), renderPairs_data,
    scanR_pairs halts hsep (pairs.map fun kv => (kv.1.data, kv.2.data)) hcond,
    renderPairs_data, List.map_map, List.map_map]
  apply congrArg
  apply List.map_congr_left
  intro kv _
  by_cases hmem : kv.1 ∈ fields
  · have hmem2 : kv.1.data ∈ fields.map String.data := mem_map_data.mpr hmem
    simp [Function.comp, hmem, hmem2]
  · have hmem2 : kv.1.data ∉ fields.map String.data := fun hc => hmem (mem_map_data.mp hc)
    simp [Function.comp, hmem, hmem2]

/-- C4 witness: the claim's second concrete test vector, derived from the
general theorem. -/
theorem C4_witness :
    filter_datum ["password"] "***" "password=secret123;" ";" = "password=***;" ∧
    filter_datum ["name", "email"] "xxx" "name=Bob;email=b@x.com;age=5;" ";"
      = "name=xxx;email=xxx;age=5;" := by
  constructor
  · have h := C4_theorem ["password"] "***" ';' [("password", "secret123")]
      (by decide) (by decide) (by decide) (by decide)
    exact h
  · have h := C4_theorem ["name", "email"] "xxx" ';'
      [("name", "Bob"), ("email", "b@x.com"), ("age", "5")]
      (by decide) (by decide) (by decide) (by decide)
    exact h

/-- C7: a field appearing multiple times in a message is redacted at
every occurrence independently: with field list `["id"]`, every pair of a
line made of repeated `id=value` pairs has its value replaced. -/
theorem C7_theorem (vs : List String)
    (hvs : ∀ v ∈ vs, ';' ∉ v.data ∧ '=' ∉ v.data) :
    filter_datum ["id"] "*" (renderPairs ';' (vs.map fun v => ("id", v))) ";"
      = renderPairs ';' (vs.map fun _ => ("id", "*")) := by
  have halts : ∀ a ∈ [['i', 'd']], '=' ∉ a ∧ ';' ∉ a := by decide
  have hcond : ∀ kv ∈ (vs.map fun v => ("id", v)).map
        (fun kv : String × String => (kv.1.data, kv.2.data)),
      ';' ∉ kv.1 ∧ '=' ∉ kv.1 ∧ ';' ∉ kv.2 ∧ '=' ∉ kv.2 ∧
      ∀ t, t <:+ kv.1 → t ∈ [['i', 'd']] → t = kv.1 := by
    intro kvc hkvc
    rw [List.map_map, List.mem_map] at hkvc
    obtain ⟨v, hv, rfl⟩ := hkvc
    refine ⟨?_, ?_, (hvs v hv).1, (hvs v hv).2, ?_⟩
    · show ';' ∉ "id".data
      decide
    · show '=' ∉ "id".data
      decide
    · intro t _ ht
      simpa using ht
  apply String.ext
  show scanR (extractAlts ["id"]) "*".data [';']
      (renderPairs ';' (vs.map fun v => ("id", v))).data
      = (renderPairs ';' (vs.map fun _ => ("id", "*"))).data
  have hex : extractAlts ["id"] = [['i', 'd']] := rfl
  rw [hex, renderPairs_data,
    scanR_pairs halts (by decide) ((vs.map fun v => ("id", v)).map
      (fun kv : String × String => (kv.1.data, kv.2.data))) hcond,
    renderPairs_data, List.map_map, List.map_map, List.map_map]
  apply congrArg
  apply List.map_congr_left
  intro v _
  simp [Function.comp]

/-- C7 witness: the claim's concrete test vector. -/
theorem C7_witness : filter_datum ["id"] "*" "id=1;id=2;" ";" = "id=*;id=*;" := by
  have h := C7_theorem ["1", "2"] (by decide)
  exact h

/-- C10: redaction is idempotent under the formatter's fixed
configuration (redaction `"***"`, separator `";"`): for every non-empty
list of alphanumeric field names and every message, a second
`filter_datum` pass leaves the first pass's output unchanged, because the
replacement `field=***` re-matches to itself and redaction creates no new
matches. -/
theorem C10_theorem (fields : List String) (m : String)
    (hne : fields ≠ [])
    (halpha : ∀ f ∈ fields, ∀ c ∈ f.data, c.isAlphanum = true) :
    filter_datum fields "***" (filter_datum fields "***" m ";") ";"
      = filter_datum fields "***" m ";" := by
  have hchar : ∀ (c : Char), c.isAlphanum = false → ∀ f ∈ fields, c ∉ f.data := by
    intro c hc f hf hmem
    have h1 := halpha f hf c hmem
    rw [hc] at h1
    cases h1
  have hbar : ∀ f ∈ fields, '|' ∉ f.data := hchar '|' (by decide)
  have halts : ∀ a ∈ fields.map String.data, '=' ∉ a ∧ ';' ∉ a := by
    intro a ha
    rw [List.mem_map] at ha
    obtain ⟨f, hf, rfl⟩ := ha
    exact ⟨hchar '=' (by decide) f hf, hchar ';' (by decide) f hf⟩
  apply String.ext
  show scanR (extractAlts fields) "***".data [';']
      (scanR (extractAlts fields) "***".data [';'] m.data)
      = scanR (extractAlts fields) "***".data [';'] m.data
  rw [extractAlts_eq hne hbar]
  exact scanR_idem halts (by decide) (by decide) m.data.length m.data (le_refl _)

/-- C10 witness at a concrete field list and message. -/
theorem C10_witness :
    filter_datum ["name"] "***" (filter_datum ["name"] "***" "name=Bob;" ";") ";"
      = filter_datum ["name"] "***" "name=Bob;" ";" :=
  C10_theorem ["name"] "name=Bob;" (by decide) (by decide)
